import Mathlib

/-!
Verification of the fixed-point number core (`numbers`): the `bitmask`
utility and the `Num` value type with its derived quantities, predicates,
digit access, precision extension (`normalize`) and positional `split`.

The Python code is embedded shallowly: the magnitude `c` is a `ℕ`
(the constructor rejects negative magnitudes), exponents and positions are
`ℤ`, and operations that raise `ValueError` return `Except Err`.
Everything is placed in the `V1` namespace to avoid clashing with
Mathlib's own `Num` type.
-/

namespace V1

/-- The two `ValueError` flavours the library raises, told apart by their
message: argument-validation failures (`InvalidArgument`) and the
`normalize` narrowing failure (`InsufficientPrecision`). -/
inductive Err where
  | invalidArgument
  | insufficientPrecision
deriving DecidableEq

/-- Value of `bitmask` on its non-negative domain: `(1 << k) - 1`,
exactly the expression both Python drafts return. -/
def bitmask (k : ℕ) : ℕ := (1 <<< k) - 1

/-- `numbers/utils.py : bitmask`, with its explicit guard: a negative `k`
raises `ValueError` (`InvalidArgument`). -/
def bitmaskChecked (k : ℤ) : Except Err ℕ :=
  if k < 0 then .error .invalidArgument else .ok (bitmask k.toNat)

/-- `numbers/util.py : bitmask`, the unguarded draft: on a negative `k`
Python's `1 << k` itself raises `ValueError` ("negative shift count"),
so the observable behaviour is the same error class. -/
def bitmaskUtil (k : ℤ) : Except Err ℕ :=
  if k < 0 then .error .invalidArgument else .ok (bitmask k.toNat)

/-- `numbers/v1/num.py : Num` — sign, LSB position, unsigned magnitude.
The constructor's `c ≥ 0` check is absorbed into the type `ℕ`. -/
structure Num where
  s : Bool
  exp : ℤ
  c : ℕ
deriving DecidableEq

/-- Python's `int.bit_length`, written with structural recursion on a fuel
bound (any fuel `≥ n` gives the bit length of `n`); this makes it reducible
by the kernel, and `bitLenAux_eq` identifies it with `Nat.size`. -/
def bitLenAux : ℕ → ℕ → ℕ
  | 0, _ => 0
  | fuel + 1, m => if m = 0 then 0 else bitLenAux fuel (m / 2) + 1

/-- `Num.p`: minimum number of binary digits required to encode `c`
(Python `int.bit_length`). -/
def Num.p (x : Num) : ℕ := bitLenAux x.c x.c

/-- `Num.e`: position of the most significant digit, `None` for zero. -/
def Num.e (x : Num) : Option ℤ :=
  if x.c = 0 then none else some (x.exp + x.p - 1)

/-- `Num.n`: position of the first unrepresentable digit below the
significant digits, exactly `exp - 1`. -/
def Num.n (x : Num) : ℤ := x.exp - 1

/-- The defining equation of the source's `Num.m` property, which returns
`-self.m` when `s` is set and `self.m` otherwise: a value `v` satisfies the
body of that definition iff `v = if s then -v else v`.  (The source
definition recurses on itself with no base case, so it denotes no
terminating computation; this predicate is what its code actually asserts
of a would-be result.) -/
def Num.mEqn (x : Num) (v : ℤ) : Prop := v = if x.s then -v else v

/-- The value `Num.m` is documented to produce: `(-1)^s * c`. -/
def Num.mSpec (x : Num) : ℤ := if x.s then -(x.c : ℤ) else (x.c : ℤ)

/-- `Num.is_zero`. -/
def Num.is_zero (x : Num) : Bool := x.c == 0

/-- `Num.is_integer` (Exercise 1.1), branch for branch from the source:
zero → true; `exp ≥ 0` → true; `e < 0` → false; otherwise test the
fractional bits `c & bitmask(-exp)`. -/
def Num.is_integer (x : Num) : Bool :=
  if x.c = 0 then true
  else if 0 ≤ x.exp then true
  else if x.exp + x.p - 1 < 0 then false
  else decide (x.c &&& bitmask (-x.exp).toNat = 0)

/-- `Num.bit` (Exercise 1.2): digit at absolute position `n`. -/
def Num.bit (x : Num) (n : ℤ) : Bool :=
  if x.c = 0 then false
  else if n < x.exp then false
  else if x.exp + x.p - 1 < n then false
  else decide (x.c &&& (1 <<< (n - x.exp).toNat) ≠ 0)

/-- `Num.normalize` (Exercise 1.3): widen to exactly `p` bits of
precision; negative `p` raises `InvalidArgument`, zero is returned
unchanged, `p < self.p` raises `InsufficientPrecision`. -/
def Num.normalize (x : Num) (p : ℤ) : Except Err Num :=
  if p < 0 then .error .invalidArgument
  else if x.c = 0 then .ok x
  else if p < (x.p : ℤ) then .error .insufficientPrecision
  else
    let shift := (p - (x.p : ℤ)).toNat
    .ok ⟨x.s, x.exp - (shift : ℤ), x.c <<< shift⟩

/-- `Num.split` (Exercise 1.4): digits strictly above `n` and digits at or
below `n`, in source order: zero first, then `n > e`, then `n < exp`,
then the general masked split. -/
def Num.split (x : Num) (n : ℤ) : Num × Num :=
  if x.c = 0 then (⟨x.s, n + 1, 0⟩, ⟨x.s, n, 0⟩)
  else if x.exp + x.p - 1 < n then (⟨x.s, n + 1, 0⟩, ⟨x.s, x.exp, x.c⟩)
  else if n < x.exp then (⟨x.s, x.exp, x.c⟩, ⟨x.s, n, 0⟩)
  else
    let p_lo := ((n + 1) - x.exp).toNat
    let mask_lo := bitmask p_lo
    (⟨x.s, x.exp + (p_lo : ℤ), x.c >>> p_lo⟩, ⟨x.s, x.exp, x.c &&& mask_lo⟩)

/-- The mathematical value a `Num` represents: `(-1)^s * c * 2^exp`. -/
def Num.val (x : Num) : ℚ :=
  (if x.s then -1 else 1) * (x.c : ℚ) * (2 : ℚ) ^ x.exp

lemma size_div_two (m : ℕ) (h : m ≠ 0) : Nat.size m = Nat.size (m / 2) + 1 := by
  apply le_antisymm
  · have h1 : m / 2 < 2 ^ Nat.size (m / 2) := Nat.lt_size_self (m / 2)
    have h2 : m ≤ 2 * (m / 2) + 1 := by omega
    have : m < 2 ^ (Nat.size (m / 2) + 1) := by
      rw [pow_succ, mul_comm]
      omega
    exact Nat.size_le.2 this
  · have hk : 1 ≤ Nat.size m := Nat.size_pos.2 (Nat.pos_of_ne_zero h)
    have h1 : m < 2 ^ Nat.size m := Nat.lt_size_self m
    have h2 : m / 2 < 2 ^ (Nat.size m - 1) := by
      have : 2 ^ Nat.size m = 2 * 2 ^ (Nat.size m - 1) := by
        conv_lhs => rw [show Nat.size m = (Nat.size m - 1) + 1 by omega]
        rw [pow_succ, mul_comm]
      omega
    have := Nat.size_le.2 h2
    omega

lemma bitLenAux_eq (fuel m : ℕ) (h : m ≤ fuel) : bitLenAux fuel m = Nat.size m := by
  induction fuel generalizing m with
  | zero =>
    have : m = 0 := by omega
    subst this
    simp [bitLenAux]
  | succ fuel ih =>
    by_cases hm : m = 0
    · subst hm
      simp [bitLenAux]
    · have hdiv : m / 2 ≤ fuel := by omega
      rw [bitLenAux, if_neg hm, ih _ hdiv, ← size_div_two m hm]

lemma p_eq_size (x : Num) : x.p = Nat.size x.c := bitLenAux_eq _ _ le_rfl

instance : DecidableEq (Except Err Num) := fun a b =>
  match a, b with
  | .ok a, .ok b => decidable_of_iff (a = b) (by simp)
  | .error a, .error b => decidable_of_iff (a = b) (by simp)
  | .ok _, .error _ => isFalse (by simp)
  | .error _, .ok _ => isFalse (by simp)

lemma bitmask_eq (k : ℕ) : bitmask k = 2 ^ k - 1 := by
  simp [bitmask, Nat.shiftLeft_eq]

lemma and_bitmask (c k : ℕ) : c &&& bitmask k = c % 2 ^ k := by
  rw [bitmask_eq, Nat.and_pow_two_sub_one_eq_mod]

lemma p_pos (x : Num) (hc : x.c ≠ 0) : 1 ≤ x.p := by
  rw [p_eq_size]
  exact Nat.size_pos.2 (Nat.pos_of_ne_zero hc)

lemma c_lt_two_pow_p (x : Num) : x.c < 2 ^ x.p := by
  rw [p_eq_size]
  exact Nat.lt_size_self x.c

/-- Recombination of the two halves of a masked split: shifting the high
digits back up and or-ing in the low digits restores the magnitude. -/
lemma recombine (c k : ℕ) : ((c >>> k) <<< k) ||| (c &&& bitmask k) = c := by
  rw [and_bitmask]
  apply Nat.eq_of_testBit_eq
  intro i
  rw [Nat.testBit_or, Nat.testBit_shiftLeft, Nat.testBit_shiftRight,
    Nat.testBit_mod_two_pow]
  by_cases h : k ≤ i
  · have hki : k + (i - k) = i := by omega
    simp [h, hki, Nat.not_lt.2 h]
  · simp [h, Nat.lt_of_not_le h]


/-- C7: the source's `m` accessor contradicts its own documentation. At
`Num(s=True, exp=0, c=1)` the accessor's defining equation
(`m = -m` when the sign is set) is not satisfied by the documented value
`(-1)^s * c = -1`; the recursion has no base case and denotes no
terminating computation. -/
theorem m_defect : ¬ Num.mEqn ⟨true, 0, 1⟩ (Num.mSpec ⟨true, 0, 1⟩) := by
  unfold Num.mEqn Num.mSpec
  decide

/-- C8: for every non-negative integer `k`, `bitmask k` returns `2^k - 1`
(in both the `utils.py` and `util.py` drafts), with `bitmask 0 = 0` and
`bitmask 5 = 31`, and a negative `k` fails with `InvalidArgument`. -/
theorem bitmask_spec (k : ℤ) :
    (0 ≤ k →
      bitmaskChecked k = .ok (2 ^ k.toNat - 1) ∧
      bitmaskUtil k = .ok (2 ^ k.toNat - 1)) ∧
    (k < 0 →
      bitmaskChecked k = .error .invalidArgument ∧
      bitmaskUtil k = .error .invalidArgument) ∧
    bitmask 0 = 0 ∧ bitmask 5 = 31 := by
  refine ⟨fun h => ?_, fun h => ?_, by decide, by decide⟩
  · rw [bitmaskChecked, bitmaskUtil, if_neg (not_lt.2 h), bitmask_eq]
    exact ⟨rfl, rfl⟩
  · rw [bitmaskChecked, bitmaskUtil, if_pos h]
    exact ⟨rfl, rfl⟩

/-- Witness for C8 at `k = 5` and `k = -1`. -/
theorem bitmask_spec_witness :
    bitmaskChecked 5 = .ok 31 ∧ bitmaskChecked (-1) = .error .invalidArgument :=
  ⟨((bitmask_spec 5).1 (by decide)).1, ((bitmask_spec (-1)).2.1 (by decide)).1⟩

/-- C3: `normalize` fails with `InsufficientPrecision` exactly when the
value is nonzero and `p_target < p` (among well-typed non-negative
targets); a zero value is returned unchanged; a negative `p_target` fails
with `InvalidArgument`. -/
theorem normalize_errors (x : Num) (pt : ℤ) :
    (pt < 0 → x.normalize pt = .error .invalidArgument) ∧
    (0 ≤ pt → x.c = 0 → x.normalize pt = .ok x) ∧
    (0 ≤ pt →
      (x.normalize pt = .error .insufficientPrecision ↔
        x.c ≠ 0 ∧ pt < (x.p : ℤ))) := by
  refine ⟨fun h => ?_, fun h hz => ?_, fun h => ?_⟩
  · rw [Num.normalize, if_pos h]
  · rw [Num.normalize, if_neg (not_lt.2 h), if_pos hz]
  · rw [Num.normalize, if_neg (not_lt.2 h)]
    by_cases hz : x.c = 0
    · simp [hz]
    · rw [if_neg hz]
      by_cases hp : pt < (x.p : ℤ)
      · simp [hp, hz]
      · simp [hp]

/-- Witness for C3: a negative target, a zero input, and a narrowing
request on `Num(False, 0, 7)` (precision 3). -/
theorem normalize_errors_witness :
    Num.normalize ⟨false, 0, 7⟩ (-1) = .error .invalidArgument ∧
    Num.normalize ⟨true, 2, 0⟩ 9 = .ok ⟨true, 2, 0⟩ ∧
    Num.normalize ⟨false, 0, 7⟩ 1 = .error .insufficientPrecision :=
  ⟨(normalize_errors ⟨false, 0, 7⟩ (-1)).1 (by decide),
   (normalize_errors ⟨true, 2, 0⟩ 9).2.1 (by decide) rfl,
   ((normalize_errors ⟨false, 0, 7⟩ 1).2.2 (by decide)).2 ⟨by decide, by decide⟩⟩

/-- C9: the concrete scenario `Num(s=False, exp=-2, c=5)`: `p = 3`,
`e = 0`, `n = -3`, `is_integer() = False`, `bit(-1) = False`,
`bit(-2) = True`, `normalize(5)` has `exp = -4` and `c = 20`, and
`split(-1)` gives `hi = Num(False, 0, 1)`, `lo = Num(False, -2, 1)`. -/
theorem concrete_scenario :
    Num.p ⟨false, -2, 5⟩ = 3 ∧
    Num.e ⟨false, -2, 5⟩ = some 0 ∧
    Num.n ⟨false, -2, 5⟩ = -3 ∧
    Num.is_integer ⟨false, -2, 5⟩ = false ∧
    Num.bit ⟨false, -2, 5⟩ (-1) = false ∧
    Num.bit ⟨false, -2, 5⟩ (-2) = true ∧
    Num.normalize ⟨false, -2, 5⟩ 5 = .ok ⟨false, -4, 20⟩ ∧
    Num.split ⟨false, -2, 5⟩ (-1) = (⟨false, 0, 1⟩, ⟨false, -2, 1⟩) := by
  decide

/-- C6: `split` at and beyond the boundaries, for nonzero values: when
`n ≥ e` the low part is the original value and the high part is zero at
`exp = n+1`; when `n < exp` the high part is the original value and the
low part is zero at `exp = n`; and a zero value splits into the two zeros
`Num(s, n+1, 0)` and `Num(s, n, 0)`. -/
theorem split_edge (x : Num) (n : ℤ) :
    (x.c ≠ 0 → x.exp + (x.p : ℤ) - 1 ≤ n →
      x.split n = (⟨x.s, n + 1, 0⟩, ⟨x.s, x.exp, x.c⟩)) ∧
    (x.c ≠ 0 → n < x.exp →
      x.split n = (⟨x.s, x.exp, x.c⟩, ⟨x.s, n, 0⟩)) ∧
    (x.c = 0 → x.split n = (⟨x.s, n + 1, 0⟩, ⟨x.s, n, 0⟩)) := by
  refine ⟨fun hc h => ?_, fun hc h => ?_, fun hz => ?_⟩
  · rw [Num.split, if_neg hc]
    rcases lt_or_eq_of_le h with h | h
    · rw [if_pos h]
    · have hp1 : 1 ≤ x.p := p_pos x hc
      have hlo : ((n + 1) - x.exp).toNat = x.p := by omega
      rw [if_neg (not_lt.2 (le_of_eq h.symm)), if_neg (not_lt.2 (by omega))]
      have hhi : x.c >>> x.p = 0 := by
        rw [Nat.shiftRight_eq_div_pow]
        exact Nat.div_eq_of_lt (c_lt_two_pow_p x)
      have hmask : x.c &&& bitmask x.p = x.c := by
        rw [and_bitmask]
        exact Nat.mod_eq_of_lt (c_lt_two_pow_p x)
      simp only [hlo, hhi, hmask]
      have : x.exp + (x.p : ℤ) = n + 1 := by omega
      rw [this]
  · have hp1 : 1 ≤ x.p := p_pos x hc
    rw [Num.split, if_neg hc, if_neg (not_lt.2 (by omega)), if_pos h]
  · rw [Num.split, if_pos hz]

/-- Witness for C6: both nonzero boundary cases at `Num(False, 0, 1)` and
the zero case at `Num(True, 3, 0)`. -/
theorem split_edge_witness :
    Num.split ⟨false, 0, 1⟩ 0 = (⟨false, 1, 0⟩, ⟨false, 0, 1⟩) ∧
    Num.split ⟨false, 0, 1⟩ (-1) = (⟨false, 0, 1⟩, ⟨false, -1, 0⟩) ∧
    Num.split ⟨true, 3, 0⟩ 7 = (⟨true, 8, 0⟩, ⟨true, 7, 0⟩) :=
  ⟨(split_edge ⟨false, 0, 1⟩ 0).1 (by decide) (by decide),
   (split_edge ⟨false, 0, 1⟩ (-1)).2.1 (by decide) (by decide),
   (split_edge ⟨true, 3, 0⟩ 7).2.2 rfl⟩

lemma and_one_shiftLeft_ne_zero (c i : ℕ) :
    decide (c &&& (1 <<< i) ≠ 0) = c.testBit i := by
  rw [Nat.one_shiftLeft, Nat.and_two_pow]
  cases h : c.testBit i <;> simp [h, Nat.pos_iff_ne_zero.1 (Nat.two_pow_pos i)]

/-- C5: for a nonzero value and `exp ≤ n ≤ e`, `bit n` is bit `n - exp` of
`c`; outside `[exp, e]` it is `False`; and for a zero value it is `False`
at every position. -/
theorem bit_spec (x : Num) (n : ℤ) :
    (x.c ≠ 0 → x.exp ≤ n → n ≤ x.exp + (x.p : ℤ) - 1 →
      x.bit n = x.c.testBit (n - x.exp).toNat) ∧
    (x.c ≠ 0 → n < x.exp ∨ x.exp + (x.p : ℤ) - 1 < n → x.bit n = false) ∧
    (x.c = 0 → x.bit n = false) := by
  refine ⟨fun hc h1 h2 => ?_, fun hc h => ?_, fun hz => ?_⟩
  · rw [Num.bit, if_neg hc, if_neg (not_lt.2 h1), if_neg (not_lt.2 h2),
      and_one_shiftLeft_ne_zero]
  · rw [Num.bit, if_neg hc]
    rcases h with h | h
    · rw [if_pos h]
    · rw [if_neg (not_lt.2 (by omega)), if_pos h]
  · rw [Num.bit, if_pos hz]

/-- Witness for C5 at `Num(False, -2, 5)`: an in-range position, the two
out-of-range sides, and a zero value. -/
theorem bit_spec_witness :
    Num.bit ⟨false, -2, 5⟩ 0 = Nat.testBit 5 2 ∧
    Num.bit ⟨false, -2, 5⟩ 1 = false ∧
    Num.bit ⟨false, -2, 5⟩ (-3) = false ∧
    Num.bit ⟨true, 4, 0⟩ 4 = false :=
  ⟨(bit_spec ⟨false, -2, 5⟩ 0).1 (by decide) (by decide) (by decide),
   (bit_spec ⟨false, -2, 5⟩ 1).2.1 (by decide) (Or.inr (by decide)),
   (bit_spec ⟨false, -2, 5⟩ (-3)).2.1 (by decide) (Or.inl (by decide)),
   (bit_spec ⟨true, 4, 0⟩ 4).2.2 rfl⟩

/-- C2: `normalize(p_target)` on a nonzero value with `p_target ≥ p`
succeeds with `exp' = exp - (p_target - p)` and `c' = c << (p_target - p)`,
and the result has precision exactly `p_target`, represents the same
quantity `c' * 2^exp' = c * 2^exp`, and keeps the sign. -/
theorem normalize_widen (x : Num) (pt : ℤ) (hc : x.c ≠ 0)
    (hp : (x.p : ℤ) ≤ pt) :
    x.normalize pt = Except.ok
      ⟨x.s, x.exp - (pt - (x.p : ℤ)), x.c <<< (pt - (x.p : ℤ)).toNat⟩ ∧
    ∀ y : Num, x.normalize pt = Except.ok y →
      (y.p : ℤ) = pt ∧
      (y.c : ℚ) * (2 : ℚ) ^ y.exp = (x.c : ℚ) * (2 : ℚ) ^ x.exp ∧
      y.s = x.s := by
  have h0 : (0 : ℤ) ≤ pt := le_trans (Int.ofNat_nonneg _) hp
  have ht : ((pt - (x.p : ℤ)).toNat : ℤ) = pt - (x.p : ℤ) :=
    Int.toNat_of_nonneg (by omega)
  have hok : x.normalize pt = Except.ok
      ⟨x.s, x.exp - (pt - (x.p : ℤ)), x.c <<< (pt - (x.p : ℤ)).toNat⟩ := by
    rw [Num.normalize, if_neg (not_lt.2 h0), if_neg hc, if_neg (not_lt.2 hp)]
    show Except.ok (⟨x.s, x.exp - ((pt - (x.p : ℤ)).toNat : ℤ),
      x.c <<< (pt - (x.p : ℤ)).toNat⟩ : Num) = _
    rw [ht]
  refine ⟨hok, fun y hy => ?_⟩
  have hyy : y = ⟨x.s, x.exp - (pt - (x.p : ℤ)), x.c <<< (pt - (x.p : ℤ)).toNat⟩ :=
    Except.ok.inj (hy.symm.trans hok)
  subst hyy
  have hpx : x.p = Nat.size x.c := p_eq_size x
  refine ⟨?_, ?_, rfl⟩
  · show ((Num.p ⟨x.s, _, x.c <<< (pt - (x.p : ℤ)).toNat⟩ : ℕ) : ℤ) = pt
    rw [p_eq_size]
    show ((Nat.size (x.c <<< (pt - (x.p : ℤ)).toNat) : ℕ) : ℤ) = pt
    rw [Nat.size_shiftLeft hc]
    push_cast
    omega
  · show ((x.c <<< (pt - (x.p : ℤ)).toNat : ℕ) : ℚ) *
        (2 : ℚ) ^ (x.exp - (pt - (x.p : ℤ))) = (x.c : ℚ) * (2 : ℚ) ^ x.exp
    rw [Nat.shiftLeft_eq]
    push_cast
    rw [← zpow_natCast (2 : ℚ) ((pt - (x.p : ℤ)).toNat), mul_assoc,
      ← zpow_add₀ (two_ne_zero)]
    have hE : ((pt - (x.p : ℤ)).toNat : ℤ) + (x.exp - (pt - (x.p : ℤ))) = x.exp := by
      omega
    rw [hE]

/-- Witness for C2 at `Num(False, -2, 5)` widened to 5 bits. -/
theorem normalize_widen_witness :
    Num.normalize ⟨false, -2, 5⟩ 5 = Except.ok ⟨false, -4, 20⟩ :=
  (normalize_widen ⟨false, -2, 5⟩ 5 (by decide) (by decide)).1

lemma bit_le_of_true (x : Num) (k : ℤ) (h : x.bit k = true) :
    x.exp ≤ k ∧ k ≤ x.exp + (x.p : ℤ) - 1 := by
  by_cases hA : x.c = 0
  · rw [Num.bit, if_pos hA] at h
    exact absurd h (by simp)
  by_cases hB : k < x.exp
  · rw [Num.bit, if_neg hA, if_pos hB] at h
    exact absurd h (by simp)
  by_cases hC : x.exp + (x.p : ℤ) - 1 < k
  · rw [Num.bit, if_neg hA, if_neg hB, if_pos hC] at h
    exact absurd h (by simp)
  exact ⟨not_lt.1 hB, not_lt.1 hC⟩

/-- C1: the general case of `split` (`c ≠ 0`, `exp ≤ n ≤ e`): with
`p_lo = (n + 1) - exp`, recombining gives `(hi.c << p_lo) ||| lo.c = c`,
both halves keep the sign, every digit of `hi` sits strictly above `n`,
and every digit of `lo` sits at or below `n`. -/
theorem split_general (x : Num) (n : ℤ) (hc : x.c ≠ 0)
    (h1 : x.exp ≤ n) (h2 : n ≤ x.exp + (x.p : ℤ) - 1) :
    ((x.split n).1.c <<< ((n + 1) - x.exp).toNat) ||| (x.split n).2.c = x.c ∧
    (x.split n).1.s = x.s ∧ (x.split n).2.s = x.s ∧
    (∀ k : ℤ, (x.split n).1.bit k = true → n < k) ∧
    (∀ k : ℤ, (x.split n).2.bit k = true → k ≤ n) := by
  have hp1 : 1 ≤ x.p := p_pos x hc
  have ht : ((((n + 1) - x.exp).toNat : ℕ) : ℤ) = (n + 1) - x.exp :=
    Int.toNat_of_nonneg (by omega)
  have hsplit : x.split n =
      (⟨x.s, x.exp + (((n + 1) - x.exp).toNat : ℤ), x.c >>> ((n + 1) - x.exp).toNat⟩,
       ⟨x.s, x.exp, x.c &&& bitmask ((n + 1) - x.exp).toNat⟩) := by
    rw [Num.split, if_neg hc, if_neg (not_lt.2 h2), if_neg (not_lt.2 h1)]
  rw [hsplit]
  refine ⟨recombine x.c _, rfl, rfl, fun k hk => ?_, fun k hk => ?_⟩
  · have hb : x.exp + ((((n + 1) - x.exp).toNat : ℕ) : ℤ) ≤ k :=
      (bit_le_of_true _ k hk).1
    omega
  · have hb : k ≤ x.exp +
        ((Num.p ⟨x.s, x.exp, x.c &&& bitmask ((n + 1) - x.exp).toNat⟩ : ℕ) : ℤ) - 1 :=
      (bit_le_of_true _ k hk).2
    have hlop : Num.p ⟨x.s, x.exp, x.c &&& bitmask ((n + 1) - x.exp).toNat⟩ ≤
        ((n + 1) - x.exp).toNat := by
      rw [p_eq_size]
      show Nat.size (x.c &&& bitmask ((n + 1) - x.exp).toNat) ≤ ((n + 1) - x.exp).toNat
      rw [and_bitmask]
      exact Nat.size_le.2 (Nat.mod_lt _ (Nat.two_pow_pos _))
    omega

/-- Witness for C1 at `Num(False, -2, 5)` split at `n = -1`:
`p_lo = 2`, `hi.c = 1`, `lo.c = 1`, and `(1 << 2) ||| 1 = 5`. -/
theorem split_general_witness :
    ((Num.split ⟨false, -2, 5⟩ (-1)).1.c <<< 2) |||
      (Num.split ⟨false, -2, 5⟩ (-1)).2.c = 5 :=
  (split_general ⟨false, -2, 5⟩ (-1) (by decide) (by decide) (by decide)).1

/-- C10: in all four cases of `split` (zero, all-low, all-high, general)
the two halves recombine arithmetically:
`hi.c * 2^hi.exp + lo.c * 2^lo.exp = c * 2^exp`, and both keep the sign. -/
theorem split_sum (x : Num) (n : ℤ) :
    (((x.split n).1.c : ℚ) * (2 : ℚ) ^ (x.split n).1.exp
      + ((x.split n).2.c : ℚ) * (2 : ℚ) ^ (x.split n).2.exp
      = (x.c : ℚ) * (2 : ℚ) ^ x.exp) ∧
    (x.split n).1.s = x.s ∧ (x.split n).2.s = x.s := by
  rw [Num.split]
  split_ifs with hz hhi hlo
  · exact ⟨by simp [hz], rfl, rfl⟩
  · exact ⟨by simp, rfl, rfl⟩
  · exact ⟨by simp, rfl, rfl⟩
  · refine ⟨?_, rfl, rfl⟩
    show ((x.c >>> ((n + 1) - x.exp).toNat : ℕ) : ℚ) *
        (2 : ℚ) ^ (x.exp + ((((n + 1) - x.exp).toNat : ℕ) : ℤ))
        + ((x.c &&& bitmask ((n + 1) - x.exp).toNat : ℕ) : ℚ) * (2 : ℚ) ^ x.exp
        = (x.c : ℚ) * (2 : ℚ) ^ x.exp
    rw [Nat.shiftRight_eq_div_pow, and_bitmask]
    have h2 : (2 : ℚ) ^ (x.exp + ((((n + 1) - x.exp).toNat : ℕ) : ℤ)) =
        (2 : ℚ) ^ x.exp * ((2 ^ ((n + 1) - x.exp).toNat : ℕ) : ℚ) := by
      rw [zpow_add₀ (two_ne_zero), zpow_natCast]
      push_cast
      ring
    rw [h2]
    have keyQ : ((2 ^ ((n + 1) - x.exp).toNat : ℕ) : ℚ) *
        ((x.c / 2 ^ ((n + 1) - x.exp).toNat : ℕ) : ℚ) +
        ((x.c % 2 ^ ((n + 1) - x.exp).toNat : ℕ) : ℚ) = (x.c : ℚ) := by
      exact_mod_cast congrArg (Nat.cast : ℕ → ℚ)
        (Nat.div_add_mod x.c (2 ^ ((n + 1) - x.exp).toNat))
    linear_combination ((2 : ℚ) ^ x.exp) * keyQ

lemma val_eq_mSpec_mul (x : Num) :
    x.val = (Num.mSpec x : ℚ) * (2 : ℚ) ^ x.exp := by
  rw [Num.val, Num.mSpec]
  cases x.s
  · simp
  · push_cast
    simp

lemma int_mul_neg_zpow (a : ℤ) (m : ℕ) :
    (∃ z : ℤ, (a : ℚ) * (2 : ℚ) ^ (-(m : ℤ)) = (z : ℚ)) ↔ (2 : ℤ) ^ m ∣ a := by
  have h2 : (2 : ℚ) ^ (-(m : ℤ)) = ((2 : ℚ) ^ m)⁻¹ := by
    rw [zpow_neg, zpow_natCast]
  have h2ne : ((2 : ℚ) ^ m) ≠ 0 := by positivity
  constructor
  · rintro ⟨z, hz⟩
    rw [h2, ← div_eq_mul_inv, div_eq_iff h2ne] at hz
    have ha : a = z * 2 ^ m := by exact_mod_cast hz
    exact ⟨z, by rw [ha]; ring⟩
  · rintro ⟨d, hd⟩
    refine ⟨d, ?_⟩
    rw [hd, h2]
    push_cast
    field_simp

lemma mSpec_dvd_iff (x : Num) (m : ℕ) :
    (2 : ℤ) ^ m ∣ Num.mSpec x ↔ 2 ^ m ∣ x.c := by
  rw [Num.mSpec]
  cases x.s
  · simp only [Bool.false_eq_true, if_false]
    norm_cast
  · simp only [if_true]
    rw [dvd_neg]
    norm_cast

lemma val_int_iff (x : Num) :
    (∃ z : ℤ, x.val = (z : ℚ)) ↔
      (x.c = 0 ∨ 0 ≤ x.exp ∨ 2 ^ (-x.exp).toNat ∣ x.c) := by
  by_cases hc : x.c = 0
  · constructor
    · intro _
      exact Or.inl hc
    · intro _
      exact ⟨0, by simp [Num.val, hc]⟩
  by_cases he : 0 ≤ x.exp
  · constructor
    · intro _
      exact Or.inr (Or.inl he)
    · intro _
      refine ⟨Num.mSpec x * 2 ^ x.exp.toNat, ?_⟩
      rw [val_eq_mSpec_mul]
      have hzp : (2 : ℚ) ^ x.exp = (2 : ℚ) ^ x.exp.toNat := by
        rw [← zpow_natCast (2 : ℚ) x.exp.toNat, Int.toNat_of_nonneg he]
      rw [hzp]
      push_cast
      ring
  · have hL : (∃ z : ℤ, x.val = (z : ℚ)) ↔
        (2 : ℤ) ^ (-x.exp).toNat ∣ Num.mSpec x := by
      have hexp : (2 : ℚ) ^ x.exp = (2 : ℚ) ^ (-(((-x.exp).toNat : ℕ) : ℤ)) := by
        congr 1
        omega
      calc (∃ z : ℤ, x.val = (z : ℚ))
          ↔ ∃ z : ℤ, (Num.mSpec x : ℚ) * (2 : ℚ) ^ (-(((-x.exp).toNat : ℕ) : ℤ))
            = (z : ℚ) := by
            constructor <;> rintro ⟨z, hz⟩ <;> refine ⟨z, ?_⟩
            · rw [← hexp, ← val_eq_mSpec_mul]
              exact hz
            · rw [val_eq_mSpec_mul, hexp]
              exact hz
        _ ↔ (2 : ℤ) ^ (-x.exp).toNat ∣ Num.mSpec x :=
            int_mul_neg_zpow (Num.mSpec x) (-x.exp).toNat
    rw [hL, mSpec_dvd_iff]
    constructor
    · intro h
      exact Or.inr (Or.inr h)
    · rintro (h | h | h)
      · exact absurd h hc
      · exact absurd h he
      · exact h

lemma is_integer_iff (x : Num) :
    x.is_integer = true ↔
      (x.c = 0 ∨ 0 ≤ x.exp ∨ 2 ^ (-x.exp).toNat ∣ x.c) := by
  by_cases hc : x.c = 0
  · simp [Num.is_integer, hc]
  by_cases he : 0 ≤ x.exp
  · simp [Num.is_integer, hc, he]
  by_cases hE : x.exp + (x.p : ℤ) - 1 < 0
  · rw [Num.is_integer, if_neg hc, if_neg he, if_pos hE]
    constructor
    · intro h
      exact absurd h (by simp)
    · rintro (h | h | h)
      · exact absurd h hc
      · exact absurd h he
      · -- all digits fractional: `c < 2^(-exp)` contradicts divisibility
        exfalso
        have hple : (x.p : ℤ) ≤ ((-x.exp).toNat : ℤ) := by omega
        have hlt : x.c < 2 ^ (-x.exp).toNat := by
          calc x.c < 2 ^ x.p := c_lt_two_pow_p x
          _ ≤ 2 ^ (-x.exp).toNat :=
            Nat.pow_le_pow_right (by omega) (by exact_mod_cast hple)
        have := Nat.le_of_dvd (Nat.pos_of_ne_zero hc) h
        omega
  · rw [Num.is_integer, if_neg hc, if_neg he, if_neg hE, decide_eq_true_iff,
      and_bitmask, ← Nat.dvd_iff_mod_eq_zero]
    constructor
    · intro h
      exact Or.inr (Or.inr h)
    · rintro (h | h | h)
      · exact absurd h hc
      · exact absurd h he
      · exact h

/-- C4: `is_integer()` is true exactly when the represented value
`(-1)^s * c * 2^exp` is a mathematical integer; in particular it is true
for zero and for `exp ≥ 0`, false for nonzero purely-fractional values
(`e < 0`), and otherwise decided by `c & bitmask(-exp) == 0`. -/
theorem is_integer_correct (x : Num) :
    (x.is_integer = true ↔ ∃ z : ℤ, x.val = (z : ℚ)) ∧
    (x.c = 0 → x.is_integer = true) ∧
    (0 ≤ x.exp → x.is_integer = true) ∧
    (x.c ≠ 0 → x.exp + (x.p : ℤ) - 1 < 0 → x.is_integer = false) ∧
    (x.c ≠ 0 → x.exp < 0 → 0 ≤ x.exp + (x.p : ℤ) - 1 →
      (x.is_integer = true ↔ x.c &&& bitmask (-x.exp).toNat = 0)) := by
  refine ⟨(is_integer_iff x).trans (val_int_iff x).symm,
    fun h => ?_, fun h => ?_, fun hc hE => ?_, fun hc he hE => ?_⟩
  · rw [Num.is_integer, if_pos h]
  · rw [Num.is_integer]
    by_cases hc : x.c = 0
    · rw [if_pos hc]
    · rw [if_neg hc, if_pos h]
  · have hp1 := p_pos x hc
    have he : ¬ 0 ≤ x.exp := by omega
    rw [Num.is_integer, if_neg hc, if_neg he, if_pos hE]
  · rw [Num.is_integer, if_neg hc, if_neg (not_le.2 he), if_neg (not_lt.2 hE)]
    exact decide_eq_true_iff

/-- Witness for C4: `Num(False, 2, 3)` (value 12) is an integer,
`Num(False, -2, 5)` (value 1.25) is not. -/
theorem is_integer_correct_witness :
    Num.is_integer ⟨false, 2, 3⟩ = true ∧
    Num.is_integer ⟨false, -2, 5⟩ = false :=
  ⟨(is_integer_correct ⟨false, 2, 3⟩).2.2.1 (by decide), by
    have h := (is_integer_correct ⟨false, -2, 5⟩).2.2.2.2 (by decide)
      (by decide) (by decide)
    have hm : ¬ ((5 : ℕ) &&& bitmask 2 = 0) := by decide
    cases hb : Num.is_integer ⟨false, -2, 5⟩
    · rfl
    · exact absurd (h.1 hb) hm⟩

end V1
